import Mathlib

/-!
Verification of the rp2040_flashtool protocol engine, chunked-transfer
controller and image loader.  Bytes are modelled as `Nat` (values 0..255),
byte strings as `List Nat`, and Python `int` values as `Nat` (all the
quantities involved are parsed from unsigned little-endian fields or are
nonnegative counters).  Fallible operations return `Option`/`Except`.
-/

namespace RP2040

/-! ### Device descriptor (util.py, class BlInfo) -/

/-- Device memory-map snapshot, util.py lines 5-12. -/
structure BlInfo where
  flash_start : Nat
  flash_size : Nat
  erase_start : Nat
  erase_size : Nat
  write_size : Nat
  max_data_len : Nat
deriving DecidableEq, Repr

/-- Derived flash end, util.py lines 14-16. -/
def BlInfo.flash_end (b : BlInfo) : Nat := b.flash_start + b.flash_size

/-- Derived sector size, util.py lines 18-20. -/
def BlInfo.sector_size (b : BlInfo) : Nat := b.erase_size

/-! ### Protocol engine: send_cmd (cli.py lines 47-70)

`send_cmd` writes `cmd` then `args`, then loops: while the timeout has not
elapsed it appends `ser.read_all()` to an accumulator `resp` and breaks as
soon as bytes `cmd_len..cmd_len+4` of `resp` equal the OKOK sentinel and
`len(resp) >= total_len`
where `cmd_len = len(cmd)+len(args)` and `total_len = cmd_len+4+resp_size`;
if the while-condition fails first the `else` branch raises `ValueError`.
We model the sequence of `read_all` results that arrive before the deadline
as a list `reads : List (List Nat)`; exhausting it models the timeout. -/

/-- The 4-byte OKOK sentinel, as byte values. -/
def okok : List Nat := [79, 75, 79, 75]

/-- The break condition of the loop at cli.py line 63:
the slice of `resp` from `cmd_len` to `cmd_len+4` equals the OKOK
sentinel and `len(resp) >= total_len`. -/
def okAt (cmdLen totalLen : Nat) (acc : List Nat) : Prop :=
  (acc.drop cmdLen).take 4 = okok ∧ totalLen ≤ acc.length

instance (cmdLen totalLen : Nat) (acc : List Nat) :
    Decidable (okAt cmdLen totalLen acc) := by
  unfold okAt; infer_instance

/-- The accumulation loop of cli.py lines 59-70: each list element of
`reads` is one `read_all` result arriving within the timeout window;
when `reads` is exhausted the timeout has elapsed and the function fails
carrying the accumulator (the `raise ValueError` at line 68); on success
it returns `resp[cmd_len+4:]` (line 69). -/
def sendCmdLoop (cmdLen totalLen : Nat) (resp : List Nat) :
    List (List Nat) → Except (List Nat) (List Nat)
  | [] => Except.error resp
  | r :: rest =>
    if okAt cmdLen totalLen (resp ++ r) then
      Except.ok ((resp ++ r).drop (cmdLen + 4))
    else
      sendCmdLoop cmdLen totalLen (resp ++ r) rest

/-- Model of `send_cmd`, cli.py lines 47-70, abstracted over the
arriving reads. -/
def sendCmd (cmd args : List Nat) (respSize : Nat)
    (reads : List (List Nat)) : Except (List Nat) (List Nat) :=
  sendCmdLoop (cmd.length + args.length)
    (cmd.length + args.length + 4 + respSize) [] reads

/-! ### Chunked-transfer loops (cli.py lines 123-135, 167-179, 217-229)

All three loops share the shape `idx = 0; while idx < length:
size = min(cap, length - idx); ...; idx += size`.  `chunkLoop cap len idx`
returns the list of `(idx, size)` pairs the loop processes.  When
`cap = 0` and `idx < len` the Python loop never advances `idx` and loops
forever; the model returns `[]` in that (never-exercised) case, and every
theorem about it assumes `0 < cap`. -/

def chunkLoop (cap len idx : Nat) : List (Nat × Nat) :=
  if _h : idx < len ∧ 0 < cap then
    (idx, min cap (len - idx)) :: chunkLoop cap len (idx + min cap (len - idx))
  else []
termination_by len - idx
decreasing_by omega

/-- The chunk list of a read/write loop starting at absolute address
`addr`: pairs `(addr + idx, size)`. -/
def chunkList (cap addr len : Nat) : List (Nat × Nat) :=
  (chunkLoop cap len 0).map (fun p => (addr + p.1, p.2))

/-! ### pad_len and image padding (util.py lines 103-125) -/

/-- util.py lines 103-105: `next_aligned = ((length + align - 1) // align)
* align; return next_aligned - length`.  (Python raises on `align = 0`;
Lean's `/ 0 = 0` makes the value `0` there, and every theorem assumes
`1 ≤ align`.) -/
def pad_len (length align : Nat) : Nat :=
  (length + align - 1) / align * align - length

/-- The padding stage shared by both branches of `load_file`, util.py
lines 120-125: append `pad_len length write_size` zero bytes. -/
def padImage (data : List Nat) (write_size : Nat) : List Nat :=
  data ++ List.replicate (pad_len data.length write_size) 0

/-! ### write (cli.py lines 195-229)

`write` resolves `(addr, data)` via `load_file`, validates the range
against the descriptor (lines 211-216: `exit(1)` before any `_write`),
then chunks the data with cap `max_data_len` (lines 218-229), issuing
`_write(port, addr+idx, data[idx:idx+write_size])` per chunk.  The model
returns the list of `(address, payload)` device commands issued and a
flag that is `true` iff the validation passed and the transfer loop ran. -/

def writeOp (addr : Nat) (data : List Nat) (bl : BlInfo) :
    List (Nat × List Nat) × Bool :=
  if addr < bl.flash_start then ([], false)
  else if bl.flash_end < addr + data.length then ([], false)
  else
    ((chunkLoop bl.max_data_len data.length 0).map
      (fun p => (addr + p.1, (data.drop p.1).take p.2)), true)

/-! ### erase (cli.py lines 145-179)

The alignment check at line 164 is
`addr & (bl_info.sector_size - 1) or length & (bl_info.sector_size - 1)`,
i.e. a bitmask test, followed by `exit(1)`; only if it passes does the
chunk loop run, with the per-chunk cap `0xfffff000` (line 170).  The model
returns the list of `(address, size)` `ERAS` commands issued and a flag
that is `true` iff the check passed. -/

/-- The truthiness of the Python expression at cli.py line 164. -/
def eraseAlignFail (addr length : Nat) (bl : BlInfo) : Bool :=
  (addr &&& (bl.sector_size - 1)) != 0 || (length &&& (bl.sector_size - 1)) != 0

def eraseOp (addr length : Nat) (bl : BlInfo) : List (Nat × Nat) × Bool :=
  if eraseAlignFail addr length bl then ([], false)
  else (chunkList 0xfffff000 addr length, true)

/-! ### ELF loader and chunk merge (util.py lines 52-101) -/

/-- util.py lines 52-53. -/
def is_in_flash (addr size : Nat) (bl : BlInfo) : Bool :=
  decide (bl.flash_start ≤ addr) && decide (addr + size ≤ bl.flash_end)

/-- Program header fields used by load_elf (util.py lines 68-71). -/
structure PHeader where
  p_paddr : Nat
  p_vaddr : Nat
  p_memsz : Nat
deriving DecidableEq, Repr

/-- util.py lines 55-56. -/
def is_in_header (vaddr size : Nat) (ph : PHeader) : Bool :=
  decide (ph.p_vaddr ≤ vaddr) && decide (vaddr + size ≤ ph.p_vaddr + ph.p_memsz)

/-- Section fields used by load_elf (util.py lines 82-88): `sh_addr`, the
reported `data_size`, and the bytes returned by `sec.data()`. -/
structure Sectn where
  sh_addr : Nat
  data_size : Nat
  secData : List Nat
deriving DecidableEq, Repr

/-- util.py lines 58-61. -/
structure Chunk where
  paddr : Nat
  data : List Nat
deriving DecidableEq, Repr

/-- One byte past the last byte of a chunk. -/
def chunkEnd (c : Chunk) : Nat := c.paddr + c.data.length

/-- Two chunks occupy disjoint address ranges. -/
def chunkDisj (c d : Chunk) : Prop :=
  chunkEnd c ≤ d.paddr ∨ chunkEnd d ≤ c.paddr

/-- Chunk `c` ends at or before chunk `d` starts. -/
def chunkSep (c d : Chunk) : Prop := chunkEnd c ≤ d.paddr

/-- The program headers and sections of the parsed ELF file, in file
order (`f.get_segment(i).header` for `i < e_phnum`, `f.get_section(j)`
for `j < e_shnum`). -/
structure ElfFile where
  segments : List PHeader
  sections : List Sectn
deriving DecidableEq, Repr

/-- The chunk-collection loops of util.py lines 67-90: for each program
header inside flash (others are skipped with a warning), every section
with `sec_size > 0` lying inside the header's virtual range contributes a
chunk at `p_paddr + (sh_addr - p_vaddr)`. -/
def collectChunks (f : ElfFile) (bl : BlInfo) : List Chunk :=
  f.segments.flatMap fun ph =>
    if is_in_flash ph.p_paddr ph.p_memsz bl then
      (f.sections.filter fun s =>
          decide (0 < s.data_size) && is_in_header s.sh_addr s.data_size ph).map
        fun s => ⟨ph.p_paddr + (s.sh_addr - ph.p_vaddr), s.secData⟩
    else []

/-- Stable insertion by ascending `paddr`: a chunk goes in front of the
first existing chunk whose key it does not exceed. -/
def insertChunk (c : Chunk) : List Chunk → List Chunk
  | [] => [c]
  | d :: ds => if c.paddr ≤ d.paddr then c :: d :: ds else d :: insertChunk c ds

/-- Stable ascending sort by `paddr`: the `chunks.sort(key=lambda x:
x.paddr)` of util.py line 92. -/
def sortChunks : List Chunk → List Chunk
  | [] => []
  | c :: cs => insertChunk c (sortChunks cs)

/-- Python bytearray slice assignment `buf[start:start+len(data)] = data`
(util.py line 100): replaces that slice, extending the buffer if the
slice reaches past its end. -/
def writeAt (buf : List Nat) (start : Nat) (data : List Nat) : List Nat :=
  buf.take start ++ data ++ buf.drop (start + data.length)

/-- The merge of util.py lines 92-101: sort by `paddr`, take
`min_addr`/`max_addr` from the first and last sorted chunks, allocate a
zero buffer of `max_addr - min_addr` bytes and copy each chunk at offset
`paddr - min_addr`.  On an empty chunk list the source raises an uncaught
`IndexError` at `chunks[0]` (line 94); the model returns `none`. -/
def mergeChunks (cs : List Chunk) : Option (Nat × List Nat) :=
  match sortChunks cs with
  | [] => none
  | c0 :: rest =>
    let minAddr := c0.paddr
    let lastC := (c0 :: rest).getLast (List.cons_ne_nil c0 rest)
    let maxAddr := chunkEnd lastC
    some (minAddr,
      (c0 :: rest).foldl
        (fun buf c => writeAt buf (c.paddr - minAddr) c.data)
        (List.replicate (maxAddr - minAddr) 0))

/-- util.py lines 63-101 end to end: collect chunks, then merge. -/
def loadElf (f : ElfFile) (bl : BlInfo) : Option (Nat × List Nat) :=
  mergeChunks (collectChunks f bl)

/-! ### Bounded retry (cli.py lines 127-134, 171-178, 221-228)

Each chunk runs `for _ in range(attempts): try: op(); break; except
ValueError: pass; else: raise` with `attempts = 3`.  `outcome i` tells
whether the i-th attempt (0-based) of this chunk succeeds; the result is
`(number of attempts performed, whether the chunk succeeded)`. -/

def retryLoop (outcome : Nat → Bool) : Nat → Nat → Nat × Bool
  | _, 0 => (0, false)
  | i, n + 1 =>
    if outcome i then (1, true)
    else
      let r := retryLoop outcome (i + 1) n
      (r.1 + 1, r.2)

/-- A read/write/erase chunk's retry loop: 3 attempts. -/
def retryChunk (outcome : Nat → Bool) : Nat × Bool :=
  retryLoop outcome 0 3

/-! ### Multi-radix CLI integer parsing (type_hints.py lines 12-28)

`parse_integer` tries `int(value, 10)`, then `int(value, 16)`, then
`int(value, 2)`, returning the first success.  Python's `int(s, base)`
is modelled for the inputs the CLI claims concern: strings without sign,
whitespace or underscores.  Base 16 accepts an optional `0x`/`0X` prefix
and base 2 an optional `0b`/`0B` prefix; every remaining character must
be a digit (0-9, a-z, A-Z) whose value is below the base, and at least
one digit is required. -/

/-- Value of a single Python `int()` digit character. -/
def digitVal (c : Char) : Option Nat :=
  if '0' ≤ c ∧ c ≤ '9' then some (c.toNat - '0'.toNat)
  else if 'a' ≤ c ∧ c ≤ 'z' then some (c.toNat - 'a'.toNat + 10)
  else if 'A' ≤ c ∧ c ≤ 'Z' then some (c.toNat - 'A'.toNat + 10)
  else none

/-- One digit step of `int(s, base)`: fail on a non-digit or a digit not
below the base, else accumulate. -/
def pyDigitStep (base : Nat) (acc : Option Nat) (c : Char) : Option Nat :=
  match acc, digitVal c with
  | some v, some d => if d < base then some (v * base + d) else none
  | _, _ => none

/-- Digit accumulation of `int(s, base)` after prefix handling. -/
def pyIntCore (base : Nat) (cs : List Char) : Option Nat :=
  if cs.isEmpty then none
  else cs.foldl (pyDigitStep base) (some 0)

/-- Whether `c` is accepted as a digit by `int(s, base)`. -/
def goodDigit (base : Nat) (c : Char) : Bool :=
  match digitVal c with
  | some d => decide (d < base)
  | none => false

/-- Radix-prefix stripping of `int(s, base)`. -/
def stripRadix (base : Nat) (cs : List Char) : List Char :=
  match cs with
  | c0 :: c1 :: rest =>
    if base = 16 ∧ c0 = '0' ∧ (c1 = 'x' ∨ c1 = 'X') then rest
    else if base = 2 ∧ c0 = '0' ∧ (c1 = 'b' ∨ c1 = 'B') then rest
    else cs
  | _ => cs

/-- Python `int(s, base)` on sign-, whitespace- and underscore-free
input. -/
def pyInt (base : Nat) (cs : List Char) : Option Nat :=
  pyIntCore base (stripRadix base cs)

/-- type_hints.py lines 12-28: first successful parse among bases
10, 16, 2. -/
def parse_integer (cs : List Char) : Option Nat :=
  match pyInt 10 cs with
  | some v => some v
  | none =>
    match pyInt 16 cs with
    | some v => some v
    | none => pyInt 2 cs

/-! ### Read session (cli.py lines 87-103 and 105-135)

`_read` issues `READ (addr, size)`, fails if the returned byte count is
not exactly `size`, then issues `CRCC (addr, size)` and fails unless the
locally computed CRC32 of the data equals the device-reported 4 bytes.
The device is abstracted by two oracles giving, per attempt index `t` and
per `(addr, size)`, the data returned by a successful `READ` exchange and
the bytes returned by a successful `CRCC` exchange (`none` models a
`send_cmd` failure); `crc` abstracts
the 4-byte little-endian serialization of `zlib.crc32(data)`. -/

/-- One `_read` attempt (cli.py lines 87-103). -/
def readAttempt (crc : List Nat → List Nat)
    (devRead devCrc : Nat → Nat → Nat → Option (List Nat))
    (t a s : Nat) : Option (List Nat) :=
  match devRead t a s with
  | none => none
  | some data =>
    if data.length = s then
      match devCrc t a s with
      | none => none
      | some c => if crc data = c then some data else none
    else none

/-- First successful attempt among `n` tries starting at attempt `i`, or
`none` when all fail (the value counterpart of `retryLoop`). -/
def firstSuccess (attempt : Nat → Option (List Nat)) : Nat → Nat → Option (List Nat)
  | _, 0 => none
  | i, n + 1 =>
    match attempt i with
    | some d => some d
    | none => firstSuccess attempt (i + 1) n

/-- The chunk loop of `read` (cli.py lines 123-135) over an explicit
chunk list: each chunk is retried up to 3 times; its verified data is
appended to the output file only on success; exhaustion aborts the
session (`raise` at line 134), keeping what was already written. -/
def runChunks (att : Nat → Nat → Nat → Option (List Nat)) :
    List (Nat × Nat) → Except (List Nat) (List Nat)
  | [] => Except.ok []
  | (a, s) :: rest =>
    match firstSuccess (fun t => att a s t) 0 3 with
    | none => Except.error []
    | some d =>
      match runChunks att rest with
      | Except.ok f => Except.ok (d ++ f)
      | Except.error f => Except.error (d ++ f)

/-- The whole download loop of `read`: chunk the range `[addr, addr+len)`
with cap `max_data_len` and run the chunks in ascending order. -/
def readSession (crc : List Nat → List Nat)
    (devRead devCrc : Nat → Nat → Nat → Option (List Nat))
    (addr len cap : Nat) : Except (List Nat) (List Nat) :=
  runChunks (fun a s t => readAttempt crc devRead devCrc t a s)
    (chunkList cap addr len)

/-- The output-file content of a finished or aborted session. -/
def fileOf : Except (List Nat) (List Nat) → List Nat
  | Except.ok f => f
  | Except.error f => f

/-- What it means for chunk `p = (addr, size)` to have produced verified
data `d`: some attempt `t < 3` returned `d` from the `READ` exchange,
its length is exactly the requested size, and the locally computed CRC of
`d` equals the device-reported `CRCC` response of that attempt. -/
def verifiedChunk (crc : List Nat → List Nat)
    (devRead devCrc : Nat → Nat → Nat → Option (List Nat))
    (p : Nat × Nat) (d : List Nat) : Prop :=
  d.length = p.2 ∧ ∃ t, t < 3 ∧ devRead t p.1 p.2 = some d ∧
    ∃ c, devCrc t p.1 p.2 = some c ∧ crc d = c

/-! ## Helper lemmas about the chunk loop -/

theorem chunkLoop_sum (cap len idx : Nat) (hcap : 0 < cap) :
    ((chunkLoop cap len idx).map Prod.snd).sum = len - idx := by
  induction idx using chunkLoop.induct cap len with
  | case1 idx h ih =>
    rw [chunkLoop, dif_pos h]
    simp only [List.map_cons, List.sum_cons]
    rw [ih]
    omega
  | case2 idx h =>
    rw [chunkLoop, dif_neg h]
    simp only [List.map_nil, List.sum_nil]
    omega

theorem chunkLoop_length (cap len idx : Nat) (hcap : 0 < cap) :
    (chunkLoop cap len idx).length = (len - idx + cap - 1) / cap := by
  induction idx using chunkLoop.induct cap len with
  | case1 idx h ih =>
    rw [chunkLoop, dif_pos h, List.length_cons, ih]
    rcases le_or_lt cap (len - idx) with hle | hlt
    · have h1 : min cap (len - idx) = cap := by omega
      rw [h1]
      have h2 : len - (idx + cap) + cap - 1 = len - idx - 1 := by omega
      have h3 : len - idx + cap - 1 = len - idx - 1 + cap := by omega
      rw [h2, h3, Nat.add_div_right _ hcap]
    · have h1 : min cap (len - idx) = len - idx := by omega
      rw [h1]
      have h3 : len - (idx + (len - idx)) + cap - 1 = cap - 1 := by omega
      have h4 : len - idx + cap - 1 = len - idx - 1 + cap := by omega
      have h5 : (cap - 1) / cap = 0 := Nat.div_eq_of_lt (by omega)
      have h6 : (len - idx - 1) / cap = 0 := Nat.div_eq_of_lt (by omega)
      rw [h3, h4, h5, Nat.add_div_right _ hcap, h6]
  | case2 idx h =>
    rw [chunkLoop, dif_neg h, List.length_nil]
    have h0 : len - idx = 0 := by omega
    rw [h0]
    exact (Nat.div_eq_of_lt (by omega)).symm

theorem chunkLoop_mem (cap len idx : Nat) (p : Nat × Nat) :
    p ∈ chunkLoop cap len idx →
      idx ≤ p.1 ∧ p.1 < len ∧ p.2 = min cap (len - p.1) := by
  induction idx using chunkLoop.induct cap len with
  | case1 idx h ih =>
    intro hp
    rw [chunkLoop, dif_pos h] at hp
    rcases List.mem_cons.1 hp with h1 | h1
    · subst h1
      exact ⟨Nat.le_refl _, h.1, rfl⟩
    · have h2 := ih h1
      omega
  | case2 idx h =>
    intro hp
    rw [chunkLoop, dif_neg h] at hp
    exact absurd hp (List.not_mem_nil p)

theorem chunkLoop_cover (cap len idx addr : Nat) (hcap : 0 < cap) :
    (chunkLoop cap len idx).flatMap (fun p => List.range' (addr + p.1) p.2) =
      List.range' (addr + idx) (len - idx) := by
  induction idx using chunkLoop.induct cap len with
  | case1 idx h ih =>
    rw [chunkLoop, dif_pos h, List.flatMap_cons, ih]
    have h1 : addr + (idx + min cap (len - idx)) =
        addr + idx + min cap (len - idx) := by omega
    rw [h1]
    dsimp only
    rw [List.range'_append_1]
    congr 1
    omega
  | case2 idx h =>
    rw [chunkLoop, dif_neg h]
    have h0 : len - idx = 0 := by omega
    rw [h0, List.flatMap_nil, List.range'_zero]

/-- C4: for every total length and every chunk cap `max_data_len ≥ 1`,
the chunked read and write loops issue exactly `⌈length / cap⌉` chunks,
each chunk's size equals `min cap remaining` and is at most `cap` and
positive, the sizes sum to `length`, and the chunks cover
`[addr, addr+length)` contiguously without overlap (their half-open
ranges concatenate to exactly that range). -/
theorem claim_C4_chunking (len cap addr : Nat) (hcap : 1 ≤ cap) :
    (chunkList cap addr len).length = (len + cap - 1) / cap ∧
    ((chunkList cap addr len).map Prod.snd).sum = len ∧
    (∀ p ∈ chunkList cap addr len,
        p.2 = min cap (len - (p.1 - addr)) ∧ p.2 ≤ cap ∧ 0 < p.2 ∧
        addr ≤ p.1 ∧ p.1 < addr + len) ∧
    (chunkList cap addr len).flatMap (fun p => List.range' p.1 p.2) =
      List.range' addr len := by
  have hc : 0 < cap := hcap
  refine ⟨?_, ?_, ?_, ?_⟩
  · rw [chunkList, List.length_map, chunkLoop_length cap len 0 hc, Nat.sub_zero]
  · rw [chunkList, List.map_map]
    have h1 : (Prod.snd ∘ fun p : Nat × Nat => (addr + p.1, p.2)) = Prod.snd := rfl
    rw [h1, chunkLoop_sum cap len 0 hc, Nat.sub_zero]
  · intro p hp
    rw [chunkList, List.mem_map] at hp
    obtain ⟨q, hq, hpq⟩ := hp
    obtain ⟨h1, h2, h3⟩ := chunkLoop_mem cap len 0 q hq
    subst hpq
    dsimp only
    refine ⟨by omega, by omega, by omega, by omega, by omega⟩
  · rw [chunkList, List.flatMap_map]
    have h1 : (fun x : Nat × Nat =>
        List.range' ((addr + x.1, x.2) : Nat × Nat).1 ((addr + x.1, x.2) : Nat × Nat).2) =
        fun p : Nat × Nat => List.range' (addr + p.1) p.2 := rfl
    rw [h1, chunkLoop_cover cap len 0 addr hc, Nat.add_zero, Nat.sub_zero]

/-- Closed witness for claim C4 at `length = 10`, `cap = 4`,
`addr = 100`. -/
theorem claim_C4_chunking_witness :
    (chunkList 4 100 10).length = (10 + 4 - 1) / 4 ∧
    ((chunkList 4 100 10).map Prod.snd).sum = 10 ∧
    (∀ p ∈ chunkList 4 100 10,
        p.2 = min 4 (10 - (p.1 - 100)) ∧ p.2 ≤ 4 ∧ 0 < p.2 ∧
        100 ≤ p.1 ∧ p.1 < 100 + 10) ∧
    (chunkList 4 100 10).flatMap (fun p => List.range' p.1 p.2) =
      List.range' 100 10 :=
  claim_C4_chunking 10 4 100 (by decide)

/-! ## Helper lemmas about pad_len -/

theorem pad_len_eq (l a : Nat) (ha : 1 ≤ a) :
    pad_len l a = (a - l % a) % a := by
  have hlt : l % a < a := Nat.mod_lt _ ha
  have hdm : a * (l / a) + l % a = l := Nat.div_add_mod l a
  rcases Nat.eq_zero_or_pos (l % a) with h0 | h0
  · have h1 : (l + a - 1) / a = l / a := by
      have h2 : l + a - 1 = a * (l / a) + (a - 1) := by omega
      have h3 : (a - 1) / a = 0 := Nat.div_eq_of_lt (by omega)
      rw [h2, Nat.mul_add_div ha, h3, Nat.add_zero]
    unfold pad_len
    rw [h1, h0, Nat.sub_zero, Nat.mod_self]
    have h3 : l / a * a = a * (l / a) := Nat.mul_comm _ _
    omega
  · have h1 : (l + a - 1) / a = l / a + 1 := by
      have hs : a * (l / a + 1) = a * (l / a) + a := Nat.mul_succ a (l / a)
      have h2 : l + a - 1 = a * (l / a + 1) + (l % a - 1) := by omega
      have h3 : (l % a - 1) / a = 0 := Nat.div_eq_of_lt (by omega)
      rw [h2, Nat.mul_add_div ha, h3, Nat.add_zero]
    unfold pad_len
    rw [h1, Nat.mod_eq_of_lt (by omega : a - l % a < a)]
    have h3 : (l / a + 1) * a = a * (l / a) + a := by ring
    omega

theorem pad_len_mod (l a : Nat) (ha : 1 ≤ a) : (l + pad_len l a) % a = 0 := by
  rw [pad_len_eq l a ha]
  have hlt : l % a < a := Nat.mod_lt _ ha
  have hdm : a * (l / a) + l % a = l := Nat.div_add_mod l a
  rcases Nat.eq_zero_or_pos (l % a) with h0 | h0
  · rw [h0, Nat.sub_zero, Nat.mod_self, Nat.add_zero]
    omega
  · rw [Nat.mod_eq_of_lt (by omega : a - l % a < a)]
    have hs : a * (l / a + 1) = a * (l / a) + a := Nat.mul_succ a (l / a)
    have h2 : l + (a - l % a) = a * (l / a + 1) := by omega
    rw [h2]
    exact Nat.mul_mod_right a _

/-- C6: `pad_len length align = (align - length % align) % align` for
every `align ≥ 1`, with `pad_len 10 4 = 2` and `pad_len 8 4 = 0`, and the
padding stage of `load_file` appends exactly that many zero bytes so the
padded image's length is a multiple of the write granularity. -/
theorem claim_C6_pad_len (l a : Nat) (ha : 1 ≤ a) :
    pad_len l a = (a - l % a) % a ∧
    pad_len 10 4 = 2 ∧ pad_len 8 4 = 0 ∧
    ∀ data : List Nat,
      padImage data a = data ++ List.replicate (pad_len data.length a) 0 ∧
      (padImage data a).length % a = 0 := by
  refine ⟨pad_len_eq l a ha, by decide, by decide, fun data => ⟨rfl, ?_⟩⟩
  rw [padImage, List.length_append, List.length_replicate]
  exact pad_len_mod data.length a ha

/-- Closed witness for claim C6 at `length = 10`, `align = 4`. -/
theorem claim_C6_pad_len_witness :
    pad_len 10 4 = (4 - 10 % 4) % 4 ∧
    pad_len 10 4 = 2 ∧ pad_len 8 4 = 0 ∧
    ∀ data : List Nat,
      padImage data 4 = data ++ List.replicate (pad_len data.length 4) 0 ∧
      (padImage data 4).length % 4 = 0 :=
  claim_C6_pad_len 10 4 (by decide)

/-! ## Helper lemmas about the send_cmd loop -/

theorem sendCmdLoop_ok (c t : Nat) (reads : List (List Nat)) :
    ∀ resp data, sendCmdLoop c t resp reads = Except.ok data →
      ∃ n < reads.length,
        okAt c t (resp ++ (reads.take (n + 1)).flatten) ∧
        data = (resp ++ (reads.take (n + 1)).flatten).drop (c + 4) ∧
        ∀ m < n, ¬ okAt c t (resp ++ (reads.take (m + 1)).flatten) := by
  induction reads with
  | nil =>
    intro resp data h
    simp [sendCmdLoop] at h
  | cons r rest ih =>
    intro resp data h
    rw [sendCmdLoop] at h
    by_cases hc : okAt c t (resp ++ r)
    · rw [if_pos hc] at h
      rw [Except.ok.injEq] at h
      refine ⟨0, by simp, ?_, ?_, ?_⟩
      · simpa using hc
      · simpa using h.symm
      · intro m hm
        omega
    · rw [if_neg hc] at h
      obtain ⟨n, hn, h1, h2, h3⟩ := ih (resp ++ r) data h
      refine ⟨n + 1, by simp only [List.length_cons]; omega, ?_, ?_, ?_⟩
      · simpa [List.append_assoc] using h1
      · simpa [List.append_assoc] using h2
      · intro m hm
        cases m with
        | zero => simpa using hc
        | succ m' =>
          have h4 := h3 m' (by omega)
          simpa [List.append_assoc] using h4

theorem sendCmdLoop_err (c t : Nat) (reads : List (List Nat)) :
    ∀ resp acc, sendCmdLoop c t resp reads = Except.error acc →
      acc = resp ++ reads.flatten ∧
      ∀ m < reads.length, ¬ okAt c t (resp ++ (reads.take (m + 1)).flatten) := by
  induction reads with
  | nil =>
    intro resp acc h
    simp [sendCmdLoop] at h
    simp [h.symm]
  | cons r rest ih =>
    intro resp acc h
    rw [sendCmdLoop] at h
    by_cases hc : okAt c t (resp ++ r)
    · rw [if_pos hc] at h
      exact absurd h (by simp)
    · rw [if_neg hc] at h
      obtain ⟨h1, h2⟩ := ih (resp ++ r) acc h
      refine ⟨by simpa [List.append_assoc] using h1, ?_⟩
      intro m hm
      cases m with
      | zero => simpa using hc
      | succ m' =>
        have h4 := h2 m' (by simp only [List.length_cons] at hm; omega)
        simpa [List.append_assoc] using h4

/-- C1: `send_cmd` skips exactly `len(cmd)+len(args)` accumulated bytes
before marker-matching; it succeeds at the first read after which the 4
bytes at that offset equal the OKOK sentinel and the accumulator holds at least
`len(cmd)+len(args)+4+resp_size` bytes, returning every accumulated byte
after the 4-byte marker; if the reads are exhausted first (the timeout),
it fails carrying the whole accumulation, no prefix of which satisfied
the success condition. -/
theorem claim_C1_send_cmd (cmd args : List Nat) (respSize : Nat)
    (reads : List (List Nat)) :
    (∀ data, sendCmd cmd args respSize reads = Except.ok data →
      ∃ n < reads.length,
        okAt (cmd.length + args.length)
          (cmd.length + args.length + 4 + respSize)
          ((reads.take (n + 1)).flatten) ∧
        data = ((reads.take (n + 1)).flatten).drop (cmd.length + args.length + 4) ∧
        ∀ m < n, ¬ okAt (cmd.length + args.length)
          (cmd.length + args.length + 4 + respSize)
          ((reads.take (m + 1)).flatten)) ∧
    (∀ acc, sendCmd cmd args respSize reads = Except.error acc →
      acc = reads.flatten ∧
      ∀ m < reads.length, ¬ okAt (cmd.length + args.length)
        (cmd.length + args.length + 4 + respSize)
        ((reads.take (m + 1)).flatten)) := by
  constructor
  · intro data h
    have H := sendCmdLoop_ok (cmd.length + args.length)
      (cmd.length + args.length + 4 + respSize) reads [] data (by simpa [sendCmd] using h)
    simpa using H
  · intro acc h
    have H := sendCmdLoop_err (cmd.length + args.length)
      (cmd.length + args.length + 4 + respSize) reads [] acc (by simpa [sendCmd] using h)
    simpa using H

/-- Closed witness for claim C1: an `INFO`-style exchange with
`resp_size = 2` whose echo plus marker plus payload arrives in one
read. -/
theorem claim_C1_send_cmd_witness :
    ∃ n < 1,
      okAt 4 10 (([[73, 78, 70, 79, 79, 75, 79, 75, 5, 6]].take (n + 1)).flatten) ∧
      ([5, 6] : List Nat) =
        (([[73, 78, 70, 79, 79, 75, 79, 75, 5, 6]].take (n + 1)).flatten).drop 8 ∧
      ∀ m < n, ¬ okAt 4 10
        (([[73, 78, 70, 79, 79, 75, 79, 75, 5, 6]].take (m + 1)).flatten) :=
  (claim_C1_send_cmd [73, 78, 70, 79] [] 2
    [[73, 78, 70, 79, 79, 75, 79, 75, 5, 6]]).1 [5, 6] rfl

/-- C2: `write` proceeds to the transfer loop iff the destination range
`[addr, addr+length)` lies inside `[flash_start, flash_end)` (that is,
`flash_start ≤ addr` and `addr+length ≤ flash_end`); when the range falls
outside, it fails before issuing any `WRIT` device command (its command
trace is empty). -/
theorem claim_C2_write_range (addr : Nat) (data : List Nat) (bl : BlInfo) :
    ((writeOp addr data bl).2 = true ↔
      bl.flash_start ≤ addr ∧ addr + data.length ≤ bl.flash_end) ∧
    ((writeOp addr data bl).2 = false → (writeOp addr data bl).1 = []) := by
  unfold writeOp
  by_cases h1 : addr < bl.flash_start
  · rw [if_pos h1]
    constructor
    · simp
      omega
    · intro _
      rfl
  · rw [if_neg h1]
    by_cases h2 : bl.flash_end < addr + data.length
    · rw [if_pos h2]
      constructor
      · simp
        omega
      · intro _
        rfl
    · rw [if_neg h2]
      constructor
      · simp
        omega
      · intro h
        exact absurd h (by simp)

/-- Closed witness for claim C2: an in-range 4-byte write on a
descriptor with a 1 MiB flash at 0x10000000. -/
theorem claim_C2_write_range_witness :
    ((writeOp 0x10000000 [1, 2, 3, 4]
        ⟨0x10000000, 0x100000, 0x10000000, 4096, 256, 4096⟩).2 = true ↔
      (⟨0x10000000, 0x100000, 0x10000000, 4096, 256, 4096⟩ : BlInfo).flash_start
          ≤ 0x10000000 ∧
      0x10000000 + ([1, 2, 3, 4] : List Nat).length ≤
        (⟨0x10000000, 0x100000, 0x10000000, 4096, 256, 4096⟩ : BlInfo).flash_end) ∧
    ((writeOp 0x10000000 [1, 2, 3, 4]
        ⟨0x10000000, 0x100000, 0x10000000, 4096, 256, 4096⟩).2 = false →
      (writeOp 0x10000000 [1, 2, 3, 4]
        ⟨0x10000000, 0x100000, 0x10000000, 4096, 256, 4096⟩).1 = []) :=
  claim_C2_write_range 0x10000000 [1, 2, 3, 4]
    ⟨0x10000000, 0x100000, 0x10000000, 4096, 256, 4096⟩

/-- C3 counterexample: with a device-reported `erase_size = 3` (not a
power of two), `addr = 4` and `length = 12`, the bitmask check of
cli.py line 164 passes and `erase` proceeds to issue device commands,
although `addr` is not a multiple of `erase_size` — the claim's
"fails for any nonzero misalignment" is false for this input. -/
theorem claim_C3_counterexample :
    (eraseOp 4 12 ⟨0x10000000, 0x100000, 0x10000000, 3, 256, 1024⟩).2 = true ∧
    (eraseOp 4 12 ⟨0x10000000, 0x100000, 0x10000000, 3, 256, 1024⟩).1 ≠ [] ∧
    4 % (⟨0x10000000, 0x100000, 0x10000000, 3, 256, 1024⟩ : BlInfo).erase_size ≠ 0 := by
  have hf : eraseAlignFail 4 12 ⟨0x10000000, 0x100000, 0x10000000, 3, 256, 1024⟩
      = false := by decide
  refine ⟨?_, ?_, by decide⟩
  · simp [eraseOp, hf]
  · simp only [eraseOp, hf, Bool.false_eq_true, if_false, chunkList]
    rw [chunkLoop, dif_pos (by omega : (0 : Nat) < 12 ∧ (0 : Nat) < 0xfffff000)]
    simp

/-- C3 (amended): when the device-reported `erase_size` is a power of
two — which the bitmask `addr & (erase_size - 1)` at cli.py line 164
presupposes — `erase` proceeds iff both `addr` and `length` are
multiples of `erase_size`, and on violation it fails before issuing any
`ERAS` device command (its command trace is empty). -/
theorem claim_C3_erase_alignment (k addr length : Nat) (bl : BlInfo)
    (hpow : bl.erase_size = 2 ^ k) :
    ((eraseOp addr length bl).2 = true ↔
      addr % bl.erase_size = 0 ∧ length % bl.erase_size = 0) ∧
    ((eraseOp addr length bl).2 = false → (eraseOp addr length bl).1 = []) := by
  simp only [eraseOp, eraseAlignFail, BlInfo.sector_size, hpow,
    Nat.and_pow_two_sub_one_eq_mod]
  by_cases h1 : addr % 2 ^ k = 0 <;> by_cases h2 : length % 2 ^ k = 0 <;>
    simp [h1, h2]

/-- Closed witness for claim C3 (amended) at `erase_size = 4096 = 2^12`,
`addr = 0x10000000`, `length = 8192`. -/
theorem claim_C3_erase_alignment_witness :
    ((eraseOp 0x10000000 8192
        ⟨0x10000000, 0x100000, 0x10000000, 4096, 256, 1024⟩).2 = true ↔
      0x10000000 %
          (⟨0x10000000, 0x100000, 0x10000000, 4096, 256, 1024⟩ : BlInfo).erase_size
            = 0 ∧
      8192 %
          (⟨0x10000000, 0x100000, 0x10000000, 4096, 256, 1024⟩ : BlInfo).erase_size
            = 0) ∧
    ((eraseOp 0x10000000 8192
        ⟨0x10000000, 0x100000, 0x10000000, 4096, 256, 1024⟩).2 = false →
      (eraseOp 0x10000000 8192
        ⟨0x10000000, 0x100000, 0x10000000, 4096, 256, 1024⟩).1 = []) :=
  claim_C3_erase_alignment 12 0x10000000 8192
    ⟨0x10000000, 0x100000, 0x10000000, 4096, 256, 1024⟩ (by decide)

/-! ## Helper lemmas about the retry loops -/

theorem retryLoop_all_fail (outcome : Nat → Bool) :
    ∀ n i, (∀ j, j < n → outcome (i + j) = false) →
      retryLoop outcome i n = (n, false) := by
  intro n
  induction n with
  | zero => intro i _; rfl
  | succ n ih =>
    intro i h
    have h0 : outcome i = false := by simpa using h 0 (by omega)
    rw [retryLoop, h0]
    simp only [Bool.false_eq_true, if_false]
    rw [ih (i + 1) (fun j hj => by
      have h2 := h (j + 1) (by omega)
      have h3 : i + 1 + j = i + (j + 1) := by omega
      rw [h3]
      exact h2)]

theorem retryLoop_first_success (outcome : Nat → Bool) :
    ∀ n i k, k < n → (∀ j, j < k → outcome (i + j) = false) →
      outcome (i + k) = true → retryLoop outcome i n = (k + 1, true) := by
  intro n
  induction n with
  | zero => intro i k hk _ _; omega
  | succ n ih =>
    intro i k hk hfail hsucc
    cases k with
    | zero =>
      have h0 : outcome i = true := by simpa using hsucc
      rw [retryLoop, h0]
      simp
    | succ k' =>
      have h0 : outcome i = false := by simpa using hfail 0 (by omega)
      rw [retryLoop, h0]
      simp only [Bool.false_eq_true, if_false]
      rw [ih (i + 1) k' (by omega)
        (fun j hj => by
          have h2 := hfail (j + 1) (by omega)
          have h3 : i + 1 + j = i + (j + 1) := by omega
          rw [h3]
          exact h2)
        (by
          have h3 : i + 1 + k' = i + (k' + 1) := by omega
          rw [h3]
          exact hsucc)]

theorem firstSuccess_none (f : Nat → Option (List Nat)) :
    ∀ n i, (∀ j, j < n → f (i + j) = none) → firstSuccess f i n = none := by
  intro n
  induction n with
  | zero => intro i _; rfl
  | succ n ih =>
    intro i h
    have h0 : f i = none := by simpa using h 0 (by omega)
    rw [firstSuccess, h0]
    exact ih (i + 1) (fun j hj => by
      have h2 := h (j + 1) (by omega)
      have h3 : i + 1 + j = i + (j + 1) := by omega
      rw [h3]
      exact h2)

theorem firstSuccess_some (f : Nat → Option (List Nat)) :
    ∀ n i k d, k < n → (∀ j, j < k → f (i + j) = none) → f (i + k) = some d →
      firstSuccess f i n = some d := by
  intro n
  induction n with
  | zero => intro i k d hk _ _; omega
  | succ n ih =>
    intro i k d hk hfail hsucc
    cases k with
    | zero =>
      have h0 : f i = some d := by simpa using hsucc
      rw [firstSuccess, h0]
    | succ k' =>
      have h0 : f i = none := by simpa using hfail 0 (by omega)
      rw [firstSuccess, h0]
      exact ih (i + 1) k' d (by omega)
        (fun j hj => by
          have h2 := hfail (j + 1) (by omega)
          have h3 : i + 1 + j = i + (j + 1) := by omega
          rw [h3]
          exact h2)
        (by
          have h3 : i + 1 + k' = i + (k' + 1) := by omega
          rw [h3]
          exact hsucc)

/-- C8: a chunk whose every attempt fails performs exactly 3 attempts and
no more; a chunk succeeding on attempt `k ≤ 3` performs exactly `k`
attempts; and a chunk that exhausts its retries makes the session abort
immediately with a fatal error, processing no further chunk. -/
theorem claim_C8_retry (outcome : Nat → Bool) :
    ((∀ i, i < 3 → outcome i = false) → retryChunk outcome = (3, false)) ∧
    (∀ k, 1 ≤ k → k ≤ 3 → (∀ i, i < k - 1 → outcome i = false) →
      outcome (k - 1) = true → retryChunk outcome = (k, true)) ∧
    (∀ (att : Nat → Nat → Nat → Option (List Nat)) (a s : Nat)
        (rest : List (Nat × Nat)),
      (∀ t, t < 3 → att a s t = none) →
      runChunks att ((a, s) :: rest) = Except.error []) := by
  refine ⟨?_, ?_, ?_⟩
  · intro h
    exact retryLoop_all_fail outcome 3 0 (fun j hj => by simpa using h j hj)
  · intro k h1 h2 hfail hsucc
    have h3 := retryLoop_first_success outcome 3 0 (k - 1) (by omega)
      (fun j hj => by simpa using hfail j hj) (by simpa using hsucc)
    rw [show k - 1 + 1 = k by omega] at h3
    exact h3
  · intro att a s rest h
    have h1 : firstSuccess (fun t => att a s t) 0 3 = none :=
      firstSuccess_none _ 3 0 (fun j hj => by simpa using h j hj)
    rw [runChunks, h1]

/-- Closed witness for claim C8: an always-failing outcome takes exactly
3 attempts. -/
theorem claim_C8_retry_witness :
    retryChunk (fun _ => false) = (3, false) :=
  (claim_C8_retry (fun _ => false)).1 (fun _ _ => rfl)

/-! ## Helper lemmas about the ELF loader's empty-chunk failure -/

theorem insertChunk_ne_nil (c : Chunk) (l : List Chunk) :
    insertChunk c l ≠ [] := by
  cases l with
  | nil => simp [insertChunk]
  | cons d ds =>
    rw [insertChunk]
    by_cases h : c.paddr ≤ d.paddr
    · rw [if_pos h]; simp
    · rw [if_neg h]; simp

theorem sortChunks_eq_nil (cs : List Chunk) :
    sortChunks cs = [] ↔ cs = [] := by
  cases cs with
  | nil => simp [sortChunks]
  | cons c cs' =>
    rw [sortChunks]
    simp only [List.cons_ne_nil, iff_false]
    exact insertChunk_ne_nil c (sortChunks cs')

/-- C7: when no section produced a chunk, the ELF loader fails: it
produces no image.  (In the source the failure is the uncaught
`IndexError` raised by `chunks[0]` at util.py line 94.) -/
theorem claim_C7_no_chunks (f : ElfFile) (bl : BlInfo) :
    collectChunks f bl = [] → loadElf f bl = none := by
  intro h
  rw [loadElf, h, mergeChunks]
  rfl

/-- Closed witness for claim C7: an ELF file with no segments produces
no chunk and the loader fails. -/
theorem claim_C7_no_chunks_witness :
    collectChunks ⟨[], []⟩ ⟨0x10000000, 0x100000, 0x10000000, 4096, 256, 1024⟩
        = [] ∧
    loadElf ⟨[], []⟩ ⟨0x10000000, 0x100000, 0x10000000, 4096, 256, 1024⟩
        = none :=
  ⟨rfl, claim_C7_no_chunks ⟨[], []⟩
    ⟨0x10000000, 0x100000, 0x10000000, 4096, 256, 1024⟩ rfl⟩

/-! ## Helper lemmas about the multi-radix parser -/

theorem pyFold_good (base : Nat) :
    ∀ (cs : List Char) (v : Nat), (∀ c ∈ cs, goodDigit base c = true) →
      ∃ w, cs.foldl (pyDigitStep base) (some v) = some w := by
  intro cs
  induction cs with
  | nil => intro v _; exact ⟨v, rfl⟩
  | cons c cs' ih =>
    intro v h
    have hcg := h c (by simp)
    cases hd : digitVal c with
    | none => simp [goodDigit, hd] at hcg
    | some d =>
      rw [goodDigit, hd] at hcg
      have hdb : d < base := of_decide_eq_true hcg
      rw [List.foldl_cons]
      have hstep : pyDigitStep base (some v) c = some (v * base + d) := by
        simp [pyDigitStep, hd, hdb]
      rw [hstep]
      exact ih (v * base + d) (fun c' hc' => h c' (by simp [hc']))

theorem pyFold_some (base : Nat) :
    ∀ (cs : List Char) (a : Option Nat) (v : Nat),
      cs.foldl (pyDigitStep base) a = some v →
      a ≠ none ∧ ∀ c ∈ cs, goodDigit base c = true := by
  intro cs
  induction cs with
  | nil =>
    intro a v h
    rw [List.foldl_nil] at h
    exact ⟨by rw [h]; simp, by simp⟩
  | cons c cs' ih =>
    intro a v h
    rw [List.foldl_cons] at h
    obtain ⟨h1, h2⟩ := ih (pyDigitStep base a c) v h
    have hgood : a ≠ none ∧ goodDigit base c = true := by
      cases ha : a with
      | none => rw [ha] at h1; simp [pyDigitStep] at h1
      | some u =>
        refine ⟨by simp, ?_⟩
        cases hd : digitVal c with
        | none => rw [ha] at h1; simp [pyDigitStep, hd] at h1
        | some d =>
          rw [ha] at h1
          by_cases hdb : d < base
          · rw [goodDigit, hd]
            exact decide_eq_true hdb
          · simp [pyDigitStep, hd, hdb] at h1
    refine ⟨hgood.1, ?_⟩
    intro c' hc'
    rcases List.mem_cons.1 hc' with rfl | hc'
    · exact hgood.2
    · exact h2 c' hc'

theorem pyIntCore_some_of_good (base : Nat) (cs : List Char) (hne : cs ≠ [])
    (h : ∀ c ∈ cs, goodDigit base c = true) :
    ∃ v, pyIntCore base cs = some v := by
  rw [pyIntCore, if_neg (by simp [hne])]
  exact pyFold_good base cs 0 h

theorem pyIntCore_good_of_some (base : Nat) (cs : List Char) (v : Nat)
    (h : pyIntCore base cs = some v) :
    cs ≠ [] ∧ ∀ c ∈ cs, goodDigit base c = true := by
  rw [pyIntCore] at h
  by_cases he : cs.isEmpty
  · rw [if_pos he] at h
    exact absurd h (by simp)
  · rw [if_neg he] at h
    exact ⟨by simpa using he, (pyFold_some base cs _ v h).2⟩

theorem pyIntCore_none_of_bad (base : Nat) (cs : List Char) (c : Char)
    (hc : c ∈ cs) (hbad : goodDigit base c = false) :
    pyIntCore base cs = none := by
  cases hres : pyIntCore base cs with
  | none => rfl
  | some v =>
    obtain ⟨-, hgood⟩ := pyIntCore_good_of_some base cs v hres
    rw [hgood c hc] at hbad
    exact absurd hbad (by simp)

theorem stripRadix_ten (cs : List Char) : stripRadix 10 cs = cs := by
  cases cs with
  | nil => rfl
  | cons c0 tl =>
    cases tl with
    | nil => rfl
    | cons c1 rest =>
      rw [stripRadix, if_neg (fun hh => absurd hh.1 (by decide)),
        if_neg (fun hh => absurd hh.1 (by decide))]

theorem stripRadix_hex (rest : List Char) :
    stripRadix 16 ('0' :: 'x' :: rest) = rest := by
  rw [stripRadix]
  exact if_pos ⟨rfl, rfl, Or.inl rfl⟩

theorem goodDigit_mono {b1 b2 : Nat} (hb : b1 ≤ b2) (c : Char) :
    goodDigit b1 c = true → goodDigit b2 c = true := by
  intro h
  cases hd : digitVal c with
  | none => simp [goodDigit, hd] at h
  | some d =>
    simp only [goodDigit, hd, decide_eq_true_eq] at h ⊢
    omega

/-- C9 counterexample: on input `"0b101"` the parser returns the
hexadecimal interpretation 0xb101 = 45313 (the base-16 attempt succeeds,
reading `b` as a hex digit), while the claim's predicted binary value is
5. -/
theorem claim_C9_counterexample :
    parse_integer ['0', 'b', '1', '0', '1'] = some 45313 ∧
    pyInt 2 ['0', 'b', '1', '0', '1'] = some 5 ∧
    (45313 : Nat) ≠ 5 := by
  decide

/-- C9 (amended): the result is decided by the first successful parse
attempt in the order decimal, hexadecimal, binary.  A plain decimal
string yields its decimal value and a `0x`-prefixed hexadecimal string
its hexadecimal value, but a `0b`-prefixed binary string yields the
hexadecimal interpretation of the whole string (the base-16 attempt
accepts `b` as a digit and succeeds first); the binary attempt never
decides the result, since every string the base-2 parse accepts is also
accepted by the base-16 parse. -/
theorem claim_C9_parse_radix :
    (∀ cs : List Char, cs ≠ [] → (∀ c ∈ cs, goodDigit 10 c = true) →
      parse_integer cs = pyIntCore 10 cs ∧ ∃ v, pyIntCore 10 cs = some v) ∧
    (∀ rest : List Char, rest ≠ [] → (∀ c ∈ rest, goodDigit 16 c = true) →
      parse_integer ('0' :: 'x' :: rest) = pyIntCore 16 rest ∧
      ∃ v, pyIntCore 16 rest = some v) ∧
    (∀ rest : List Char, rest ≠ [] → (∀ c ∈ rest, goodDigit 2 c = true) →
      parse_integer ('0' :: 'b' :: rest) = pyIntCore 16 ('0' :: 'b' :: rest) ∧
      ∃ v, pyIntCore 16 ('0' :: 'b' :: rest) = some v) ∧
    (∀ (cs : List Char) (v : Nat), pyInt 2 cs = some v →
      ∃ w, pyInt 16 cs = some w) := by
  refine ⟨?_, ?_, ?_, ?_⟩
  · intro cs hne hgood
    obtain ⟨v, hv⟩ := pyIntCore_some_of_good 10 cs hne hgood
    have h10 : pyInt 10 cs = some v := by
      rw [pyInt, stripRadix_ten]
      exact hv
    constructor
    · simp only [parse_integer, h10]
      exact hv.symm
    · exact ⟨v, hv⟩
  · intro rest hne hgood
    have h10 : pyInt 10 ('0' :: 'x' :: rest) = none := by
      rw [pyInt, stripRadix_ten]
      exact pyIntCore_none_of_bad 10 _ 'x' (by simp) (by decide)
    obtain ⟨v, hv⟩ := pyIntCore_some_of_good 16 rest hne hgood
    have h16 : pyInt 16 ('0' :: 'x' :: rest) = some v := by
      rw [pyInt, stripRadix_hex]
      exact hv
    constructor
    · simp only [parse_integer, h10, h16]
      exact hv.symm
    · exact ⟨v, hv⟩
  · intro rest hne hgood
    have h10 : pyInt 10 ('0' :: 'b' :: rest) = none := by
      rw [pyInt, stripRadix_ten]
      exact pyIntCore_none_of_bad 10 _ 'b' (by simp) (by decide)
    have hs16 : stripRadix 16 ('0' :: 'b' :: rest) = '0' :: 'b' :: rest := by
      have hn1 : ¬((16 : Nat) = 16 ∧ '0' = '0' ∧ ('b' = 'x' ∨ 'b' = 'X')) := by
        decide
      have hn2 : ¬((16 : Nat) = 2 ∧ '0' = '0' ∧ ('b' = 'b' ∨ 'b' = 'B')) := by
        decide
      rw [stripRadix, if_neg hn1, if_neg hn2]
    have hgood16 : ∀ c ∈ ('0' :: 'b' :: rest), goodDigit 16 c = true := by
      intro c hc
      rcases List.mem_cons.1 hc with rfl | hc
      · decide
      rcases List.mem_cons.1 hc with rfl | hc
      · decide
      · exact goodDigit_mono (by omega) c (hgood c hc)
    obtain ⟨v, hv⟩ := pyIntCore_some_of_good 16 _ (by simp) hgood16
    have h16 : pyInt 16 ('0' :: 'b' :: rest) = some v := by
      rw [pyInt, hs16]
      exact hv
    constructor
    · simp only [parse_integer, h10, h16]
      exact hv.symm
    · exact ⟨v, hv⟩
  · intro cs v h
    rw [pyInt] at h
    obtain ⟨hne, hgood⟩ := pyIntCore_good_of_some 2 _ v h
    rw [pyInt]
    cases cs with
    | nil => exact absurd rfl hne
    | cons c0 tl =>
      cases tl with
      | nil =>
        have hgood1 : ∀ c ∈ [c0], goodDigit 2 c = true := hgood
        have hs : stripRadix 16 [c0] = [c0] := rfl
        rw [hs]
        exact pyIntCore_some_of_good 16 [c0] (by simp)
          (fun c hc => goodDigit_mono (by omega) c (hgood1 c hc))
      | cons c1 rest =>
        by_cases hb : c0 = '0' ∧ (c1 = 'b' ∨ c1 = 'B')
        · have hs2 : stripRadix 2 (c0 :: c1 :: rest) = rest := by
            rw [stripRadix, if_neg (fun hh => absurd hh.1 (by decide))]
            exact if_pos ⟨rfl, hb.1, hb.2⟩
          rw [hs2] at hgood
          have hs16 : stripRadix 16 (c0 :: c1 :: rest) = c0 :: c1 :: rest := by
            have hn1 : ¬((16 : Nat) = 16 ∧ c0 = '0' ∧ (c1 = 'x' ∨ c1 = 'X')) := by
              intro hh
              rcases hb.2 with h1 | h1 <;> rcases hh.2.2 with h2 | h2 <;>
                (rw [h1] at h2; exact absurd h2 (by decide))
            rw [stripRadix, if_neg hn1, if_neg (fun hh => absurd hh.1 (by decide))]
          rw [hs16]
          refine pyIntCore_some_of_good 16 _ (by simp) ?_
          intro c hc
          rcases List.mem_cons.1 hc with rfl | hc
          · rw [hb.1]; decide
          rcases List.mem_cons.1 hc with rfl | hc
          · rcases hb.2 with h1 | h1 <;> (rw [h1]; decide)
          · exact goodDigit_mono (by omega) c (hgood c hc)
        · have hs2 : stripRadix 2 (c0 :: c1 :: rest) = c0 :: c1 :: rest := by
            rw [stripRadix, if_neg (fun hh => absurd hh.1 (by decide)),
              if_neg (fun hh => hb ⟨hh.2.1, hh.2.2⟩)]
          rw [hs2] at hgood
          have hg1 := hgood c1 (by simp)
          have hs16 : stripRadix 16 (c0 :: c1 :: rest) = c0 :: c1 :: rest := by
            have hn1 : ¬((16 : Nat) = 16 ∧ c0 = '0' ∧ (c1 = 'x' ∨ c1 = 'X')) := by
              intro hh
              rcases hh.2.2 with h2 | h2 <;>
                (rw [h2] at hg1; exact absurd hg1 (by decide))
            rw [stripRadix, if_neg hn1, if_neg (fun hh => absurd hh.1 (by decide))]
          rw [hs16]
          exact pyIntCore_some_of_good 16 _ (by simp)
            (fun c hc => goodDigit_mono (by omega) c (hgood c hc))

/-- Closed witness for claim C9 (amended): the `0b101` instance of the
third conjunct. -/
theorem claim_C9_parse_radix_witness :
    parse_integer ('0' :: 'b' :: ['1', '0', '1']) =
      pyIntCore 16 ('0' :: 'b' :: ['1', '0', '1']) ∧
    ∃ v, pyIntCore 16 ('0' :: 'b' :: ['1', '0', '1']) = some v :=
  claim_C9_parse_radix.2.2.1 ['1', '0', '1'] (by decide) (by decide)

/-! ## Helper lemmas about the read session -/

theorem readAttempt_some (crc : List Nat → List Nat)
    (devRead devCrc : Nat → Nat → Nat → Option (List Nat)) (t a s : Nat)
    (d : List Nat) (h : readAttempt crc devRead devCrc t a s = some d) :
    d.length = s ∧ devRead t a s = some d ∧
      ∃ c, devCrc t a s = some c ∧ crc d = c := by
  unfold readAttempt at h
  cases hr : devRead t a s with
  | none => rw [hr] at h; simp at h
  | some data =>
    rw [hr] at h
    simp only [] at h
    by_cases hl : data.length = s
    · rw [if_pos hl] at h
      cases hc : devCrc t a s with
      | none => rw [hc] at h; simp at h
      | some c =>
        rw [hc] at h
        simp only [] at h
        by_cases hcrc : crc data = c
        · rw [if_pos hcrc] at h
          rw [Option.some.injEq] at h
          subst h
          exact ⟨hl, rfl, c, rfl, hcrc⟩
        · rw [if_neg hcrc] at h
          simp at h
    · rw [if_neg hl] at h
      simp at h

theorem firstSuccess_mem (f : Nat → Option (List Nat)) :
    ∀ n i d, firstSuccess f i n = some d →
      ∃ t, i ≤ t ∧ t < i + n ∧ f t = some d := by
  intro n
  induction n with
  | zero =>
    intro i d h
    rw [firstSuccess] at h
    simp at h
  | succ n ih =>
    intro i d h
    rw [firstSuccess] at h
    cases hf : f i with
    | some e =>
      rw [hf] at h
      simp only [Option.some.injEq] at h
      exact ⟨i, Nat.le_refl i, by omega, by rw [hf, h]⟩
    | none =>
      rw [hf] at h
      obtain ⟨t, h1, h2, h3⟩ := ih (i + 1) d h
      exact ⟨t, by omega, by omega, h3⟩

theorem runChunks_ok (att : Nat → Nat → Nat → Option (List Nat)) :
    ∀ (cl : List (Nat × Nat)) (file : List Nat),
      runChunks att cl = Except.ok file →
      ∃ ds : List (List Nat), file = ds.flatten ∧
        List.Forall₂ (fun (p : Nat × Nat) d =>
          firstSuccess (fun t => att p.1 p.2 t) 0 3 = some d) cl ds := by
  intro cl
  induction cl with
  | nil =>
    intro file h
    simp only [runChunks, Except.ok.injEq] at h
    exact ⟨[], by simp [h.symm], List.Forall₂.nil⟩
  | cons p rest ih =>
    intro file h
    obtain ⟨a, s⟩ := p
    simp only [runChunks] at h
    cases hf : firstSuccess (fun t => att a s t) 0 3 with
    | none => rw [hf] at h; simp at h
    | some d =>
      rw [hf] at h
      cases hr : runChunks att rest with
      | ok f2 =>
        rw [hr] at h
        simp only [Except.ok.injEq] at h
        obtain ⟨ds, hds, hall⟩ := ih f2 hr
        refine ⟨d :: ds, ?_, List.Forall₂.cons hf hall⟩
        rw [← h, hds]
        simp
      | error f2 =>
        rw [hr] at h
        simp at h

theorem runChunks_err (att : Nat → Nat → Nat → Option (List Nat)) :
    ∀ (cl : List (Nat × Nat)) (file : List Nat),
      runChunks att cl = Except.error file →
      ∃ done pfail rest, cl = done ++ pfail :: rest ∧
        firstSuccess (fun t => att pfail.1 pfail.2 t) 0 3 = none ∧
        ∃ ds : List (List Nat), file = ds.flatten ∧
          List.Forall₂ (fun (p : Nat × Nat) d =>
            firstSuccess (fun t => att p.1 p.2 t) 0 3 = some d) done ds := by
  intro cl
  induction cl with
  | nil =>
    intro file h
    simp [runChunks] at h
  | cons p rest ih =>
    intro file h
    obtain ⟨a, s⟩ := p
    simp only [runChunks] at h
    cases hf : firstSuccess (fun t => att a s t) 0 3 with
    | none =>
      rw [hf] at h
      simp only [Except.error.injEq] at h
      exact ⟨[], (a, s), rest, rfl, hf, [], by simp [h.symm], List.Forall₂.nil⟩
    | some d =>
      rw [hf] at h
      cases hr : runChunks att rest with
      | ok f2 =>
        rw [hr] at h
        simp at h
      | error f2 =>
        rw [hr] at h
        simp only [Except.error.injEq] at h
        obtain ⟨done, pfail, rest', hcl, hfail, ds, hds, hall⟩ := ih f2 hr
        refine ⟨(a, s) :: done, pfail, rest', by rw [hcl, List.cons_append], hfail,
          d :: ds, ?_, List.Forall₂.cons hf hall⟩
        rw [← h, hds]
        simp

theorem chunkLoop_head_fst (cap len idx : Nat) (q : Nat × Nat)
    (tl : List (Nat × Nat)) :
    chunkLoop cap len idx = q :: tl → q.1 = idx := by
  rw [chunkLoop]
  by_cases h : idx < len ∧ 0 < cap
  · rw [dif_pos h]
    intro he
    rw [List.cons.injEq] at he
    rw [← he.1]
  · rw [dif_neg h]
    intro he
    exact absurd he (by simp)

theorem chunkLoop_chain (cap len idx : Nat) :
    List.Chain' (fun p q : Nat × Nat => p.1 + p.2 = q.1)
      (chunkLoop cap len idx) := by
  induction idx using chunkLoop.induct cap len with
  | case1 idx h ih =>
    rw [chunkLoop, dif_pos h, List.chain'_cons']
    refine ⟨?_, ih⟩
    intro q hq
    cases hc : chunkLoop cap len (idx + min cap (len - idx)) with
    | nil => rw [hc] at hq; simp at hq
    | cons q0 tl =>
      rw [hc] at hq
      simp only [List.head?_cons, Option.mem_def, Option.some.injEq] at hq
      have hq0 := chunkLoop_head_fst cap len (idx + min cap (len - idx)) q0 tl hc
      subst hq
      simpa using hq0.symm
  | case2 idx h =>
    rw [chunkLoop, dif_neg h]
    simp

/-- C10: over every read session, the output file consists, at every
point, of exactly the verified chunks of the requested range in
ascending (contiguous) address order: on success the file is the
concatenation of one verified datum per chunk of the chunk list; on a
session-fatal abort it is the concatenation of the verified data of the
chunks preceding the failed one, whose 3 attempts all failed
verification.  The chunk list itself tiles `[addr, addr+len)` in order. -/
theorem claim_C10_read_session (crc : List Nat → List Nat)
    (devRead devCrc : Nat → Nat → Nat → Option (List Nat))
    (addr len cap : Nat) (hcap : 1 ≤ cap) :
    List.Chain' (fun p q : Nat × Nat => p.1 + p.2 = q.1)
      (chunkList cap addr len) ∧
    (chunkList cap addr len).flatMap (fun p => List.range' p.1 p.2) =
      List.range' addr len ∧
    (∀ file, readSession crc devRead devCrc addr len cap = Except.ok file →
      ∃ ds : List (List Nat), file = ds.flatten ∧
        List.Forall₂ (verifiedChunk crc devRead devCrc)
          (chunkList cap addr len) ds) ∧
    (∀ file, readSession crc devRead devCrc addr len cap = Except.error file →
      ∃ done pfail rest,
        chunkList cap addr len = done ++ pfail :: rest ∧
        firstSuccess
          (fun t => readAttempt crc devRead devCrc t pfail.1 pfail.2) 0 3
            = none ∧
        ∃ ds : List (List Nat), file = ds.flatten ∧
          List.Forall₂ (verifiedChunk crc devRead devCrc) done ds) := by
  have hconv : ∀ (p : Nat × Nat) (d : List Nat),
      firstSuccess
        (fun t => readAttempt crc devRead devCrc t p.1 p.2) 0 3 = some d →
      verifiedChunk crc devRead devCrc p d := by
    intro p d hf
    obtain ⟨t, ht1, ht2, ht3⟩ := firstSuccess_mem _ 3 0 d hf
    obtain ⟨h1, h2, c, h3, h4⟩ := readAttempt_some crc devRead devCrc t p.1 p.2 d ht3
    exact ⟨h1, t, by omega, h2, c, h3, h4⟩
  refine ⟨?_, ?_, ?_, ?_⟩
  · rw [chunkList]
    have hchain := chunkLoop_chain cap len 0
    have hmap := List.chain'_map (fun p : Nat × Nat => (addr + p.1, p.2))
      (R := fun p q : Nat × Nat => p.1 + p.2 = q.1)
      (l := chunkLoop cap len 0)
    rw [hmap]
    exact hchain.imp (fun p q hpq => by dsimp only; omega)
  · rw [chunkList, List.flatMap_map]
    have h1 : (fun x : Nat × Nat =>
        List.range' ((addr + x.1, x.2) : Nat × Nat).1
          ((addr + x.1, x.2) : Nat × Nat).2) =
        fun p : Nat × Nat => List.range' (addr + p.1) p.2 := rfl
    rw [h1, chunkLoop_cover cap len 0 addr hcap, Nat.add_zero, Nat.sub_zero]
  · intro file h
    obtain ⟨ds, hds, hall⟩ := runChunks_ok _ _ file h
    exact ⟨ds, hds, hall.imp (fun p d hpd => hconv p d hpd)⟩
  · intro file h
    obtain ⟨done, pfail, rest, hcl, hfail, ds, hds, hall⟩ :=
      runChunks_err _ _ file h
    exact ⟨done, pfail, rest, hcl, hfail, ds, hds,
      hall.imp (fun p d hpd => hconv p d hpd)⟩

/-- Closed witness for claim C10: a 2-byte read in 1-byte chunks against
an oracle that always returns `[7]` with a matching reported CRC, with
the CRC function abstracted as the length map. -/
theorem claim_C10_read_session_witness :
    List.Chain' (fun p q : Nat × Nat => p.1 + p.2 = q.1)
      (chunkList 1 0 2) ∧
    (chunkList 1 0 2).flatMap (fun p => List.range' p.1 p.2) =
      List.range' 0 2 ∧
    (∀ file, readSession (fun d => [d.length])
        (fun _ _ s => some (List.replicate s 7)) (fun _ _ s => some [s])
        0 2 1 = Except.ok file →
      ∃ ds : List (List Nat), file = ds.flatten ∧
        List.Forall₂ (verifiedChunk (fun d => [d.length])
          (fun _ _ s => some (List.replicate s 7)) (fun _ _ s => some [s]))
          (chunkList 1 0 2) ds) ∧
    (∀ file, readSession (fun d => [d.length])
        (fun _ _ s => some (List.replicate s 7)) (fun _ _ s => some [s])
        0 2 1 = Except.error file →
      ∃ done pfail rest,
        chunkList 1 0 2 = done ++ pfail :: rest ∧
        firstSuccess
          (fun t => readAttempt (fun d => [d.length])
            (fun _ _ s => some (List.replicate s 7)) (fun _ _ s => some [s])
            t pfail.1 pfail.2) 0 3 = none ∧
        ∃ ds : List (List Nat), file = ds.flatten ∧
          List.Forall₂ (verifiedChunk (fun d => [d.length])
            (fun _ _ s => some (List.replicate s 7)) (fun _ _ s => some [s]))
            done ds) :=
  claim_C10_read_session (fun d => [d.length])
    (fun _ _ s => some (List.replicate s 7)) (fun _ _ s => some [s])
    0 2 1 (by decide)

/-! ## Helper lemmas about the ELF chunk merge -/

theorem writeAt_length (buf data : List Nat) (start : Nat)
    (h : start + data.length ≤ buf.length) :
    (writeAt buf start data).length = buf.length := by
  simp only [writeAt, List.length_append, List.length_take, List.length_drop]
  omega

theorem writeAt_getElem_lt (buf data : List Nat) (start i : Nat)
    (hi : i < start) (hib : i < buf.length) :
    (writeAt buf start data)[i]? = buf[i]? := by
  rw [writeAt,
    List.getElem?_append_left
      (by simp only [List.length_append, List.length_take]; omega),
    List.getElem?_append_left (by simp only [List.length_take]; omega),
    List.getElem?_take_of_lt hi]

theorem writeAt_getElem_mid (buf data : List Nat) (start i : Nat)
    (h1 : start ≤ i) (h2 : i < start + data.length) (h3 : start ≤ buf.length) :
    (writeAt buf start data)[i]? = data[i - start]? := by
  rw [writeAt]
  have hlt : (List.take start buf).length = start := by
    simp only [List.length_take]
    omega
  rw [List.getElem?_append_left
      (by simp only [List.length_append, List.length_take]; omega),
    List.getElem?_append_right (by simp only [List.length_take]; omega),
    hlt]

theorem writeAt_getElem_ge (buf data : List Nat) (start i : Nat)
    (h1 : start + data.length ≤ i) (h3 : start ≤ buf.length) :
    (writeAt buf start data)[i]? = buf[i]? := by
  rw [writeAt]
  have hlt : (List.take start buf).length = start := by
    simp only [List.length_take]
    omega
  rw [List.getElem?_append_right
      (by simp only [List.length_append, List.length_take]; omega),
    List.length_append, hlt, List.getElem?_drop]
  congr 1
  omega

theorem insertChunk_perm (c : Chunk) (l : List Chunk) :
    List.Perm (insertChunk c l) (c :: l) := by
  induction l with
  | nil => exact List.Perm.refl [c]
  | cons d ds ih =>
    rw [insertChunk]
    by_cases h : c.paddr ≤ d.paddr
    · rw [if_pos h]
    · rw [if_neg h]
      exact (ih.cons d).trans (List.Perm.swap c d ds)

theorem sortChunks_perm (cs : List Chunk) :
    List.Perm (sortChunks cs) cs := by
  induction cs with
  | nil => exact List.Perm.refl []
  | cons c cs' ih =>
    rw [sortChunks]
    exact (insertChunk_perm c (sortChunks cs')).trans (ih.cons c)

theorem insertChunk_pairwise (c : Chunk) (l : List Chunk)
    (hl : List.Pairwise (fun a b : Chunk => a.paddr ≤ b.paddr) l) :
    List.Pairwise (fun a b : Chunk => a.paddr ≤ b.paddr) (insertChunk c l) := by
  induction l with
  | nil => simp [insertChunk]
  | cons d ds ih =>
    rw [List.pairwise_cons] at hl
    rw [insertChunk]
    by_cases h : c.paddr ≤ d.paddr
    · rw [if_pos h]
      refine List.Pairwise.cons ?_ (List.Pairwise.cons hl.1 hl.2)
      intro x hx
      rcases List.mem_cons.1 hx with rfl | hx
      · exact h
      · exact Nat.le_trans h (hl.1 x hx)
    · rw [if_neg h]
      refine List.Pairwise.cons ?_ (ih hl.2)
      intro x hx
      have hx' : x ∈ c :: ds := (insertChunk_perm c ds).mem_iff.1 hx
      rcases List.mem_cons.1 hx' with rfl | hx'
      · omega
      · exact hl.1 x hx'

theorem sortChunks_pairwise (cs : List Chunk) :
    List.Pairwise (fun a b : Chunk => a.paddr ≤ b.paddr) (sortChunks cs) := by
  induction cs with
  | nil => simp [sortChunks]
  | cons c cs' ih =>
    rw [sortChunks]
    exact insertChunk_pairwise c (sortChunks cs') ih

theorem sorted_sep (cs : List Chunk)
    (hdisj : List.Pairwise chunkDisj cs) (hne : ∀ c ∈ cs, c.data ≠ []) :
    List.Pairwise chunkSep (sortChunks cs) := by
  have hperm := sortChunks_perm cs
  have hsymm : ∀ {x y : Chunk}, chunkDisj x y → chunkDisj y x := by
    intro x y h
    exact Or.symm h
  have hdisj' : List.Pairwise chunkDisj (sortChunks cs) :=
    (List.Perm.pairwise_iff hsymm hperm).2 hdisj
  have hle := sortChunks_pairwise cs
  refine (hle.and hdisj').imp_of_mem ?_
  intro a b ha hb hab
  rcases hab.2 with h | h
  · exact h
  · exfalso
    have hbne := hne b (hperm.mem_iff.1 hb)
    have h1 : b.data.length = 0 := by
      have h2 := hab.1
      simp only [chunkEnd] at h
      omega
    exact hbne (List.eq_nil_of_length_eq_zero h1)

theorem sep_head_min (c0 : Chunk) (rest : List Chunk)
    (hsep : List.Pairwise chunkSep (c0 :: rest)) :
    ∀ c ∈ c0 :: rest, c0.paddr ≤ c.paddr := by
  intro c hc
  rcases List.mem_cons.1 hc with rfl | hc
  · exact Nat.le_refl _
  · have h := List.rel_of_pairwise_cons hsep hc
    simp only [chunkSep, chunkEnd] at h
    omega

theorem sep_ends_le_getLast :
    ∀ (l : List Chunk) (h : l ≠ []), List.Pairwise chunkSep l →
      ∀ c ∈ l, chunkEnd c ≤ chunkEnd (l.getLast h) := by
  intro l
  induction l with
  | nil => intro h; exact absurd rfl h
  | cons x tl ih =>
    intro h hp c hc
    cases tl with
    | nil =>
      have hcx : c = x := by simpa using hc
      subst hcx
      simp
    | cons y tl' =>
      rw [List.getLast_cons (List.cons_ne_nil y tl')]
      rcases List.mem_cons.1 hc with rfl | hc
      · have hlm : (y :: tl').getLast (List.cons_ne_nil y tl') ∈ y :: tl' :=
          List.getLast_mem (List.cons_ne_nil y tl')
        have hsep := List.rel_of_pairwise_cons hp hlm
        simp only [chunkSep] at hsep
        have h2 : ((y :: tl').getLast (List.cons_ne_nil y tl')).paddr ≤
            chunkEnd ((y :: tl').getLast (List.cons_ne_nil y tl')) := by
          simp [chunkEnd]
        omega
      · rw [List.pairwise_cons] at hp
        exact ih (List.cons_ne_nil y tl') hp.2 c hc

theorem buildChunks (minAddr : Nat) :
    ∀ (s : List Chunk) (buf : List Nat),
      List.Pairwise chunkSep s →
      (∀ c ∈ s, minAddr ≤ c.paddr) →
      (∀ c ∈ s, chunkEnd c ≤ minAddr + buf.length) →
      (s.foldl (fun b c => writeAt b (c.paddr - minAddr) c.data) buf).length
          = buf.length ∧
      ∀ i, i < buf.length →
        (∀ c ∈ s, c.paddr ≤ minAddr + i → minAddr + i < chunkEnd c →
          (s.foldl (fun b c => writeAt b (c.paddr - minAddr) c.data) buf)[i]?
            = c.data[minAddr + i - c.paddr]?) ∧
        ((∀ c ∈ s, minAddr + i < c.paddr ∨ chunkEnd c ≤ minAddr + i) →
          (s.foldl (fun b c => writeAt b (c.paddr - minAddr) c.data) buf)[i]?
            = buf[i]?) := by
  intro s
  induction s with
  | nil =>
    intro buf _ _ _
    refine ⟨rfl, ?_⟩
    intro i _
    exact ⟨fun c hc => absurd hc (List.not_mem_nil c), fun _ => rfl⟩
  | cons c s' ih =>
    intro buf hsep hmin hend
    rw [List.pairwise_cons] at hsep
    have hminc := hmin c (by simp)
    have hendc := hend c (by simp)
    have hfit : c.paddr - minAddr + c.data.length ≤ buf.length := by
      simp only [chunkEnd] at hendc
      omega
    have hlen' : (writeAt buf (c.paddr - minAddr) c.data).length = buf.length :=
      writeAt_length buf c.data (c.paddr - minAddr) hfit
    have hih := ih (writeAt buf (c.paddr - minAddr) c.data) hsep.2
      (fun c' hc' => hmin c' (by simp [hc']))
      (fun c' hc' => by rw [hlen']; exact hend c' (by simp [hc']))
    rw [List.foldl_cons]
    refine ⟨hih.1.trans hlen', ?_⟩
    intro i hi
    have hi' : i < (writeAt buf (c.paddr - minAddr) c.data).length := by
      rw [hlen']
      exact hi
    obtain ⟨hcov, hunc⟩ := hih.2 i hi'
    constructor
    · intro c' hc' hp1 hp2
      rcases List.mem_cons.1 hc' with rfl | hc'
      · have hafter : ∀ c'' ∈ s', minAddr + i < c''.paddr := by
          intro c'' hc''
          have hs := hsep.1 c'' hc''
          simp only [chunkSep] at hs
          omega
        rw [hunc (fun c'' hc'' => Or.inl (hafter c'' hc''))]
        have hp2' : minAddr + i < c'.paddr + c'.data.length := by
          simpa only [chunkEnd] using hp2
        rw [writeAt_getElem_mid buf c'.data (c'.paddr - minAddr) i
          (by omega) (by omega) (by omega)]
        congr 1
        omega
      · exact hcov c' hc' hp1 hp2
    · intro hall
      have hc0 := hall c (by simp)
      rw [hunc (fun c'' hc'' => hall c'' (by simp [hc'']))]
      rcases hc0 with h | h
      · exact writeAt_getElem_lt buf c.data (c.paddr - minAddr) i (by omega) hi
      · have h' : c.paddr + c.data.length ≤ minAddr + i := by
          simpa only [chunkEnd] using h
        exact writeAt_getElem_ge buf c.data (c.paddr - minAddr) i
          (by omega) (by omega)

theorem mergeChunks_eq_of_sort (cs : List Chunk) (c0 : Chunk)
    (rest : List Chunk) (hs : sortChunks cs = c0 :: rest) :
    mergeChunks cs = some (c0.paddr,
      (c0 :: rest).foldl
        (fun buf c => writeAt buf (c.paddr - c0.paddr) c.data)
        (List.replicate
          (chunkEnd ((c0 :: rest).getLast (List.cons_ne_nil c0 rest))
            - c0.paddr) 0)) := by
  unfold mergeChunks
  rw [hs]

/-- C5: for every non-empty, pairwise-disjoint collection of non-empty
chunks, the merge returns the minimum chunk address as load address and a
buffer spanning exactly from that minimum to the maximum chunk end, in
which every position covered by a chunk holds that chunk's byte and every
gap holds zero; in particular chunks `(0x1000, "AA")` and
`(0x1004, "BB")` merge to the 6-byte image `"AA\x00\x00BB"` with load
address `0x1000`. -/
theorem claim_C5_elf_merge :
    (∀ (cs : List Chunk) (mn : Nat) (img : List Nat),
      List.Pairwise chunkDisj cs → (∀ c ∈ cs, c.data ≠ []) →
      mergeChunks cs = some (mn, img) →
      (∀ c ∈ cs, mn ≤ c.paddr) ∧ (∃ c ∈ cs, c.paddr = mn) ∧
      ∃ mx, (∀ c ∈ cs, chunkEnd c ≤ mx) ∧ (∃ c ∈ cs, chunkEnd c = mx) ∧
        img.length = mx - mn ∧
        ∀ i, i < mx - mn →
          (∀ c ∈ cs, c.paddr ≤ mn + i → mn + i < chunkEnd c →
            img[i]? = c.data[mn + i - c.paddr]?) ∧
          ((∀ c ∈ cs, mn + i < c.paddr ∨ chunkEnd c ≤ mn + i) →
            img[i]? = some 0)) ∧
    mergeChunks [⟨0x1000, [65, 65]⟩, ⟨0x1004, [66, 66]⟩] =
      some (0x1000, [65, 65, 0, 0, 66, 66]) := by
  constructor
  · intro cs mn img hdisj hne hmerge
    cases hs : sortChunks cs with
    | nil =>
      have hcs : cs = [] := (sortChunks_eq_nil cs).1 hs
      subst hcs
      rw [show mergeChunks [] = none from rfl] at hmerge
      exact absurd hmerge (by simp)
    | cons c0 rest =>
      rw [mergeChunks_eq_of_sort cs c0 rest hs, Option.some.injEq,
        Prod.mk.injEq] at hmerge
      obtain ⟨hmn, himg⟩ := hmerge
      have hperm : List.Perm (c0 :: rest) cs := by
        rw [← hs]
        exact sortChunks_perm cs
      have hsep : List.Pairwise chunkSep (c0 :: rest) := by
        rw [← hs]
        exact sorted_sep cs hdisj hne
      have hmin := sep_head_min c0 rest hsep
      have hends := sep_ends_le_getLast (c0 :: rest)
        (List.cons_ne_nil c0 rest) hsep
      have hc0end : c0.paddr ≤ chunkEnd c0 := by simp [chunkEnd]
      have hc0L : c0.paddr ≤
          chunkEnd ((c0 :: rest).getLast (List.cons_ne_nil c0 rest)) := by
        have h2 := hends c0 (by simp)
        omega
      have hbuild := buildChunks c0.paddr (c0 :: rest)
        (List.replicate
          (chunkEnd ((c0 :: rest).getLast (List.cons_ne_nil c0 rest))
            - c0.paddr) 0)
        hsep hmin
        (by
          intro c hc
          rw [List.length_replicate]
          have h2 := hends c hc
          omega)
      rw [himg] at hbuild
      rw [List.length_replicate] at hbuild
      refine ⟨?_, ?_, ?_⟩
      · intro c hc
        rw [← hmn]
        exact hmin c (hperm.mem_iff.2 hc)
      · exact ⟨c0, hperm.mem_iff.1 (by simp), hmn⟩
      · refine ⟨chunkEnd ((c0 :: rest).getLast (List.cons_ne_nil c0 rest)),
          ?_, ?_, ?_, ?_⟩
        · intro c hc
          exact hends c (hperm.mem_iff.2 hc)
        · exact ⟨(c0 :: rest).getLast (List.cons_ne_nil c0 rest),
            hperm.mem_iff.1 (List.getLast_mem (List.cons_ne_nil c0 rest)), rfl⟩
        · rw [hbuild.1, ← hmn]
        · intro i hi
          rw [← hmn] at hi
          obtain ⟨hcov, hunc⟩ := hbuild.2 i hi
          constructor
          · intro c hc hp1 hp2
            rw [← hmn] at hp1 hp2 ⊢
            exact hcov c (hperm.mem_iff.2 hc) hp1 hp2
          · intro hall
            rw [← hmn] at hall
            rw [hunc (fun c hc => hall c (hperm.mem_iff.1 hc))]
            exact List.getElem?_replicate_of_lt hi
  · decide

/-- Closed witness for claim C5 at the two disjoint chunks `(10, [1])`
and `(12, [2])`, whose merge is `(10, [1, 0, 2])`. -/
theorem claim_C5_elf_merge_witness :
    (∀ c ∈ [(⟨10, [1]⟩ : Chunk), ⟨12, [2]⟩], 10 ≤ c.paddr) ∧
    (∃ c ∈ [(⟨10, [1]⟩ : Chunk), ⟨12, [2]⟩], c.paddr = 10) ∧
    ∃ mx, (∀ c ∈ [(⟨10, [1]⟩ : Chunk), ⟨12, [2]⟩], chunkEnd c ≤ mx) ∧
      (∃ c ∈ [(⟨10, [1]⟩ : Chunk), ⟨12, [2]⟩], chunkEnd c = mx) ∧
      ([1, 0, 2] : List Nat).length = mx - 10 ∧
      ∀ i, i < mx - 10 →
        (∀ c ∈ [(⟨10, [1]⟩ : Chunk), ⟨12, [2]⟩], c.paddr ≤ 10 + i →
          10 + i < chunkEnd c →
          ([1, 0, 2] : List Nat)[i]? = c.data[10 + i - c.paddr]?) ∧
        ((∀ c ∈ [(⟨10, [1]⟩ : Chunk), ⟨12, [2]⟩],
            10 + i < c.paddr ∨ chunkEnd c ≤ 10 + i) →
          ([1, 0, 2] : List Nat)[i]? = some 0) :=
  claim_C5_elf_merge.1 [⟨10, [1]⟩, ⟨12, [2]⟩] 10 [1, 0, 2]
    (by
      refine List.Pairwise.cons ?_ (List.Pairwise.cons (by simp) List.Pairwise.nil)
      intro c hc
      rcases List.mem_cons.1 hc with rfl | hc
      · exact Or.inl (by decide)
      · simp at hc)
    (by
      intro c hc
      rcases List.mem_cons.1 hc with rfl | hc
      · simp
      rcases List.mem_cons.1 hc with rfl | hc
      · simp
      · simp at hc)
    (by decide)

end RP2040
